import Mathlib

set_option maxRecDepth 10000

/-!
Shallow embedding of `gears/processors.py` (class `DirectivesProcessor`),
the directive processor of the gears asset pipeline, together with proofs
about its header extraction, directive parsing, dispatch and assembly.

External collaborators (`AssetAttributes`, `Environment.find`,
`Environment.list`, `Asset` rendering) are modelled as response functions
carried inside the processor structure, exactly at the interface the code
uses them: `environment.find` keyed by the resolved logical path yielding
the rendered text of the found asset (or `none` for `FileNotFound`), and
`environment.list` yielding `(attributes-path, rendered text)` pairs.

Python exceptions that escape `process()` are modelled by `Option`:
`none` means an uncaught exception was raised.
-/

namespace Gears

/-- Characters treated as whitespace by Python's `str.strip` and matched by
`\s` in `re` (the ASCII/Latin-1 fragment; the directive grammar of
`processors.py` only ever meets these). -/
def pyIsSpace (c : Char) : Bool :=
  c == ' ' || c == '\t' || c == '\n' || c == '\r' || c == '\x0b' || c == '\x0c' ||
  c == '\x1c' || c == '\x1d' || c == '\x1e' || c == '\x1f' || c == '\x85'

/-- Line boundaries recognised by Python's `str.splitlines`
(`\r\n` is treated as a single boundary by the splitter below). -/
def isLineBreak (c : Char) : Bool :=
  c == '\n' || c == '\r' || c == '\x0b' || c == '\x0c' ||
  c == '\x1c' || c == '\x1d' || c == '\x1e' || c == '\x85' ||
  c == '\u2028' || c == '\u2029'

def lstripChars (cs : List Char) : List Char := cs.dropWhile pyIsSpace

def rstripChars (cs : List Char) : List Char :=
  (cs.reverse.dropWhile pyIsSpace).reverse

/-- Python `str.strip()`. -/
def stripChars (cs : List Char) : List Char := rstripChars (lstripChars cs)

def pyStrip (s : String) : String := String.mk (stripChars s.data)

/-- Python `str.splitlines()` (no kept ends, `\r\n` counts as one boundary,
a trailing boundary opens no further line, the empty string has no lines). -/
def splitlinesAux : List Char → List Char → List (List Char)
  | [], acc => if acc.isEmpty then [] else [acc.reverse]
  | '\r' :: '\n' :: rest, acc => acc.reverse :: splitlinesAux rest []
  | c :: rest, acc =>
    if isLineBreak c then acc.reverse :: splitlinesAux rest []
    else splitlinesAux rest (c :: acc)

def pySplitlines (cs : List Char) : List (List Char) := splitlinesAux cs []

/-- ASCII fragment of Python `\w` (letters, digits, underscore). -/
def isWordChar (c : Char) : Bool :=
  decide (97 ≤ c.toNat ∧ c.toNat ≤ 122) || decide (65 ≤ c.toNat ∧ c.toNat ≤ 90) ||
  decide (48 ≤ c.toNat ∧ c.toNat ≤ 57) || c == '_'

/-- The two shell quote characters (codepoints 39 and 34: apostrophe and
double quote). -/
def isQuoteChar (c : Char) : Bool := c.toNat == 39 || c.toNat == 34

/-- Character class `[./'"\s\w-]` of `DirectivesProcessor.directive_re`. -/
def isDirectiveChar (c : Char) : Bool :=
  c == '.' || c == '/' || isQuoteChar c || pyIsSpace c || isWordChar c || c == '-'

/-- Comment-marker alternation `(?:\*|//|#)` of `directive_re`. -/
def matchMarker (cs : List Char) : Option (List Char) :=
  if cs.head? == some '*' || cs.head? == some '#' then some (cs.drop 1)
  else if cs.head? == some '/' && (cs.drop 1).head? == some '/' then some (cs.drop 2)
  else none

/-- Matching of `directive_re`, that is
`^\s*(?:\*|//|#)\s*=\s*(\w+[./'"\s\w-]*)$`, against one header line
(lines produced by `splitlines` carry no line terminator, so `$` is end of
string), returning capture group 1: greedy `\s*` is maximal whitespace
(no marker, `=` or `\w` character is whitespace, so backtracking into a
shorter `\s*` can never rescue a failed match), and the group extends to
the end of the line with every character in the class and a word character
first. -/
def parseDirectiveLine (line : List Char) : Option (List Char) :=
  match matchMarker (line.dropWhile pyIsSpace) with
  | none => none
  | some rest =>
    let r1 := rest.dropWhile pyIsSpace
    if r1.head? == some '=' then
      let t := (r1.drop 1).dropWhile pyIsSpace
      match t.head? with
      | some c => if isWordChar c && t.all isDirectiveChar then some t else none
      | none => none
    else none

/-- Scan a POSIX-quoted span up to the closing quote `q`, returning the
quoted text and the remainder; `none` models the `ValueError`
("No closing quotation") that `shlex.split` raises on an unbalanced
quote. -/
def takeQuoted (q : Char) : List Char → Option (List Char × List Char)
  | [] => none
  | c :: rest =>
    if c == q then some ([], rest)
    else (takeQuoted q rest).map (fun p => (c :: p.1, p.2))

/-- `shlex.whitespace` (the four token-separating characters). -/
def shlexWs (c : Char) : Bool := c == ' ' || c == '\t' || c == '\r' || c == '\n'

/-- Fueled worker for POSIX `shlex.split` on inputs without backslashes
(the directive character class admits none, so escape handling never
triggers): whitespace separates tokens, either quote character opens a
quoted span that joins the current token, every other character joins the
current token. `acc` is the current token reversed, `inWord` whether a
token is open, `toks` the finished tokens reversed. Each step consumes at
least one character, so fuel `length + 1` is never exhausted. -/
def shlexAux : Nat → List Char → List Char → Bool → List String → Option (List String)
  | 0, _, _, _, _ => none
  | _ + 1, [], acc, inWord, toks =>
    some ((if inWord then String.mk acc.reverse :: toks else toks).reverse)
  | fuel + 1, c :: rest, acc, inWord, toks =>
    if shlexWs c then
      if inWord then shlexAux fuel rest [] false (String.mk acc.reverse :: toks)
      else shlexAux fuel rest [] false toks
    else if isQuoteChar c then
      match takeQuoted c rest with
      | none => none
      | some (inner, rest2) => shlexAux fuel rest2 (inner.reverse ++ acc) true toks
    else shlexAux fuel rest (c :: acc) true toks

/-- Python `shlex.split` (POSIX mode); `none` models the `ValueError`
raised on an unbalanced quote. -/
def shlexSplit (t : List Char) : Option (List String) :=
  shlexAux (t.length + 1) t [] false []

/-- Lazy scan for `.*?\*/` under DOTALL: the consumed text runs through the
first `*/` occurrence. -/
def findBlockEnd : List Char → Option (List Char × List Char)
  | [] => none
  | c :: rest =>
    if c == '*' && rest.head? == some '/' then some (['*', '/'], rest.drop 1)
    else (findBlockEnd rest).map (fun q => (c :: q.1, q.2))

/-- Branch `/\*.*?\*/` of `DirectivesProcessor.header_re`. -/
def blockComment (cs : List Char) : Option (List Char × List Char) :=
  if cs.head? == some '/' && (cs.drop 1).head? == some '*' then
    (findBlockEnd (cs.drop 2)).map (fun q => ('/' :: '*' :: q.1, q.2))
  else none

/-- One `//[^\n]*\n?` line comment: `[^\n]*` runs to the next newline or the
end of input, and `\n?` consumes the newline when present. -/
def lineComment (cs : List Char) : Option (List Char × List Char) :=
  if cs.head? == some '/' && (cs.drop 1).head? == some '/' then
    let rest := cs.drop 2
    let txt := rest.takeWhile (fun c => !(c == '\n'))
    let rem := rest.dropWhile (fun c => !(c == '\n'))
    if rem.head? == some '\n' then some ('/' :: '/' :: (txt ++ ['\n']), rem.drop 1)
    else some ('/' :: '/' :: txt, rem)
  else none

/-- Greedy `(//[^\n]*\n?)+` (fueled; each comment consumes at least two
characters, so fuel `length + 1` is never exhausted). -/
def lineCommentsAux : Nat → List Char → Option (List Char × List Char)
  | 0, _ => none
  | fuel + 1, cs =>
    match lineComment cs with
    | none => none
    | some (m, r) =>
      match lineCommentsAux fuel r with
      | none => some (m, r)
      | some (m2, r2) => some (m ++ m2, r2)

/-- One iteration `\s*((/\*.*?\*/)|(//[^\n]*\n?)+)` of `header_re`, with the
alternation tried in pattern order (a comment starts with `/`, never with
whitespace, so the greedy `\s*` is exactly the maximal whitespace run). -/
def headerChunk (cs : List Char) : Option (List Char × List Char) :=
  let ws := cs.takeWhile pyIsSpace
  let rest := cs.dropWhile pyIsSpace
  match blockComment rest with
  | some (m, r) => some (ws ++ m, r)
  | none =>
    match lineCommentsAux (rest.length + 1) rest with
    | some (m, r) => some (ws ++ m, r)
    | none => none

/-- Greedy outer `(...)+` of `header_re` (fueled; each chunk consumes at
least two characters, so fuel `length + 1` is never exhausted). Nothing
follows the repetition in the pattern, so the committed greedy scan never
needs to backtrack: the match is the concatenation of the maximal run of
successful iterations. -/
def headerMatchAux : Nat → List Char → Option (List Char × List Char)
  | 0, _ => none
  | fuel + 1, cs =>
    match headerChunk cs with
    | none => none
    | some (m, r) =>
      match headerMatchAux fuel r with
      | none => some (m, r)
      | some (m2, r2) => some (m ++ m2, r2)

/-- Anchored match of
`header_re = ^(\s*((/\*.*?\*/)|(//[^\n]*\n?)+))+` (DOTALL) against the
start of the source, returning the matched span and the remainder. -/
def headerMatch (cs : List Char) : Option (List Char × List Char) :=
  headerMatchAux (cs.length + 1) cs

/-- Python `posixpath.dirname`: the part before the last `/`, with trailing
slashes stripped unless the head consists only of slashes. -/
def dirname (s : String) : String :=
  let head := (s.data.reverse.dropWhile (fun c => !(c == '/'))).reverse
  if head.isEmpty || head.all (fun c => c == '/') then String.mk head
  else String.mk ((head.reverse.dropWhile (fun c => c == '/')).reverse)

/-- Python `posixpath.join` for two components. -/
def joinPath (a b : String) : String :=
  if b.data.head? == some '/' then b
  else if a.data.isEmpty || a.data.getLast? == some '/' then a ++ b
  else a ++ "/" ++ b

/-- Python `str.split('/')`. -/
def splitOnSlashAux : List Char → List Char → List String
  | [], acc => [String.mk acc.reverse]
  | '/' :: rest, acc => String.mk acc.reverse :: splitOnSlashAux rest []
  | c :: rest, acc => splitOnSlashAux rest (c :: acc)

/-- Component loop of `posixpath.normpath`; `newComps` is kept reversed so
that Python's `append`/`pop` on the tail become conses here. -/
def normCompsAux (initSlashes : Bool) : List String → List String → List String
  | [], newComps => newComps.reverse
  | comp :: rest, newComps =>
    if comp == "" || comp == "." then normCompsAux initSlashes rest newComps
    else if !(comp == "..") || (!initSlashes && newComps.isEmpty) ||
        newComps.head? == some ".." then
      normCompsAux initSlashes rest (comp :: newComps)
    else
      match newComps with
      | [] => normCompsAux initSlashes rest []
      | _ :: t => normCompsAux initSlashes rest t

/-- Python `posixpath.normpath`: lexical normalization collapsing `.` and
`..` segments, preserving one or exactly two leading slashes. -/
def normpath (s : String) : String :=
  if s == "" then "."
  else
    let d := s.data
    let slash1 := d.head? == some '/'
    let slash2 := slash1 && (d.drop 1).head? == some '/' &&
      !((d.drop 2).head? == some '/')
    let p := String.intercalate "/" (normCompsAux slash1 (splitOnSlashAux d []) [])
    let p := if slash2 then "//" ++ p else if slash1 then "/" ++ p else p
    if p == "" then "." else p

/-- Strict lexicographic order on character lists by codepoint
(Python `str` comparison). -/
def lexLt : List Char → List Char → Bool
  | [], [] => false
  | [], _ :: _ => true
  | _ :: _, [] => false
  | a :: as, b :: bs =>
    if a.toNat < b.toNat then true
    else if b.toNat < a.toNat then false
    else lexLt as bs

def pathLt (s t : String) : Bool := lexLt s.data t.data

/-- Insert an entry in front of the first resting entry whose key is not
smaller, skipping strictly smaller keys: the insertion step of a stable
ascending sort by the first component. -/
def insertByPath (x : String × String) : List (String × String) → List (String × String)
  | [] => [x]
  | y :: ys => if pathLt y.1 x.1 then y :: insertByPath x ys else x :: y :: ys

/-- Python `sorted(entries, key=lambda e: e[0].path)`: ascending and stable
in the first component. Python's `sorted` is a stable sort, and any two
stable sorts under the same key order agree on every input, so insertion
sort is an exact model. -/
def sortByPath : List (String × String) → List (String × String)
  | [] => []
  | x :: xs => insertByPath x (sortByPath xs)

/-- Shallow embedding of one `DirectivesProcessor` instance. `path`,
`suffix` and `extensions` are the fields of the collaborating
`AssetAttributes` that the processor reads; `envFind` is
`environment.find` keyed by resolved logical path and fused with `Asset`
rendering (it yields the rendered text of the found asset, or `none` for
`FileNotFound`); `envList` is `environment.list` yielding
`(attributes-path, rendered text)` pairs in unspecified order. -/
structure DirectivesProcessor where
  path : String
  suffix : List String
  extensions : List String
  envFind : String → Option String
  envList : String → List String → List (String × String)
  source : String

/-- `self.source_header` as computed in `__init__`: the matched span of
`header_re`, or the empty string when there is no match. -/
def sourceHeader (p : DirectivesProcessor) : List Char :=
  match headerMatch p.source.data with
  | some (m, _) => m
  | none => []

/-- `self.source_body`, computed by `header_re.sub('', source)`: the
pattern is anchored by `^` without MULTILINE, so it can only match at
position 0 and the substitution removes exactly the leading match (the
same span `match.group(0)` covers); with no match the body is the whole
source. -/
def sourceBody (p : DirectivesProcessor) : List Char :=
  match headerMatch p.source.data with
  | some (_, r) => r
  | none => p.source.data

/-- `DirectivesProcessor.get_relative_path`: join the argument to the
directory of the current logical path, normalize lexically, and for file
references append the full extension chain. -/
def get_relative_path (p : DirectivesProcessor) (req : String) (isDirectory : Bool) : String :=
  let r := normpath (joinPath (dirname p.path) req)
  if isDirectory then r else r ++ String.join p.extensions

/-- `DirectivesProcessor.find`: locate the required asset by resolved path
(the `AssetAttributes` constructed there carry exactly this path). -/
def find (p : DirectivesProcessor) (req : String) : Option String :=
  p.envFind (get_relative_path p req false)

/-- `DirectivesProcessor.parse_directives`: the capture-group texts of the
header lines matching `directive_re`, in header order. The generator in
the code carries each line's number only into exception messages, which
the dispatch loop discards, so line numbers are dropped here; the
`shlex.split` of each matching line runs lazily when the dispatch loop
reaches it, so it is applied in `processDirectivesGo` below. -/
def parse_directives (p : DirectivesProcessor) : List (List Char) :=
  (pySplitlines (sourceHeader p)).filterMap parseDirectiveLine

/-- Whether a token list is the one shape on which
`process_require_self_directive` returns without raising, which is the
only way `has_require_self = True` is reached in the loop. -/
def directiveIsSelf (args : List String) : Bool := args == ["require_self"]

/-- The fragments one dispatched directive appends to the output list
`body`: a failing directive (wrong arity, unknown name, `require` target
not found) raises `InvalidDirective`, which the loop catches and ignores,
so it contributes nothing. -/
def directiveFragment (p : DirectivesProcessor) (args : List String) : List String :=
  match args with
  | [] => []
  | name :: rest =>
    if name = "require" then
      match rest with
      | [a] =>
        match find p a with
        | some t => [pyStrip t]
        | none => []
      | _ => []
    else if name = "require_directory" then
      match rest with
      | [a] =>
        (sortByPath (p.envList (get_relative_path p a true) p.suffix)).map
          (fun e => pyStrip e.2)
      | _ => []
    else if name = "require_self" then
      match rest with
      | [] => [pyStrip (String.mk (sourceBody p))]
      | _ => []
    else []

/-- The dispatch loop of `process_directives`: tokenize each parsed line
(`none` models the uncaught `ValueError` from `shlex.split`, and the
never-reached empty token list would be an uncaught `IndexError` at
`args[0]`), append the directive's fragments, record a successful
`require_self`, then append the stripped body when no `require_self`
succeeded, join with blank lines and strip. -/
def processDirectivesGo (p : DirectivesProcessor) :
    List (List Char) → List String → Bool → Option String
  | [], body, hasSelf =>
    let body := if hasSelf then body else body ++ [pyStrip (String.mk (sourceBody p))]
    some (pyStrip (String.intercalate "\n\n" body))
  | t :: rest, body, hasSelf =>
    match shlexSplit t with
    | none => none
    | some [] => none
    | some (a :: args) =>
      processDirectivesGo p rest (body ++ directiveFragment p (a :: args))
        (hasSelf || directiveIsSelf (a :: args))

/-- `DirectivesProcessor.process_directives`. -/
def process_directives (p : DirectivesProcessor) : Option String :=
  processDirectivesGo p (parse_directives p) [] false

/-- `DirectivesProcessor.process`: an empty header short-circuits to the
stripped body plus newline; otherwise the directive result plus newline. -/
def process (p : DirectivesProcessor) : Option String :=
  if (sourceHeader p).isEmpty then some (pyStrip (String.mk (sourceBody p)) ++ "\n")
  else (process_directives p).map (fun s => s ++ "\n")

/-- Tokenization of a whole parsed-directive list: `some` exactly when
every line splits without a quoting error into a non-empty token list. -/
def tokenizeAll : List (List Char) → Option (List (List String))
  | [] => some []
  | t :: rest =>
    match shlexSplit t with
    | none => none
    | some [] => none
    | some (a :: args) => (tokenizeAll rest).map (fun ds => (a :: args) :: ds)

/-- The assembled fragment list as the spec describes it: each directive's
fragments in directive order, then the stripped body appended once at the
end when no `require_self` directive succeeded. -/
def specFragments (p : DirectivesProcessor) (ds : List (List String)) : List String :=
  (ds.map (directiveFragment p)).flatten ++
    (if ds.any directiveIsSelf then [] else [pyStrip (String.mk (sourceBody p))])

/-- The three directive-level error conditions of the dispatch table: wrong
argument count for `require`/`require_directory`/`require_self`, a
`require` whose resolved target the environment does not find, or an
unknown directive name. -/
def directiveErrors (p : DirectivesProcessor) (args : List String) : Prop :=
  ∃ name rest, args = name :: rest ∧
    ((name = "require" ∧ rest.length ≠ 1) ∨
     (name = "require" ∧ ∃ a, rest = [a] ∧ find p a = none) ∨
     (name = "require_directory" ∧ rest.length ≠ 1) ∨
     (name = "require_self" ∧ rest ≠ []) ∨
     (name ≠ "require" ∧ name ≠ "require_directory" ∧ name ≠ "require_self"))

/-- The non-strict key order that `sortByPath` establishes between
neighbouring entries: the right key is not smaller than the left one. -/
def pathLe (x y : String × String) : Prop := pathLt y.1 x.1 = false

/-- A concrete processor instance used to witness the theorems below; the
variants after it change only the source text. -/
def pwMain : DirectivesProcessor :=
  { path := "js/app.js", suffix := [".js"], extensions := [".js"],
    envFind := fun q => if q == "js/a.js" then some " AAA " else none,
    envList := fun d s =>
      if d == "js/sub" && s == [".js"] then
        [("js/sub/b.js", "B"), ("js/sub/a.js", "A"), ("js/sub/c.js", "C")]
      else [],
    source := "//= require a\n//= require_self\nBODY " }

def pwNoHeader : DirectivesProcessor := { pwMain with source := "BODY" }

def pwProse : DirectivesProcessor := { pwMain with source := "// hello\nBODY" }

def pwFailSoft : DirectivesProcessor :=
  { pwMain with source := "//= require nope\n//= require_self\nBODY" }

def pwSelfArgs : DirectivesProcessor := { pwMain with source := "//= require_self x\nBODY" }

def pwHash : DirectivesProcessor := { pwMain with source := "# = require a\nBODY" }

def pwDir : DirectivesProcessor := { pwMain with source := "//= require_directory sub\nBODY" }

/-- A source whose directive line carries an unbalanced apostrophe: the
header is non-empty, the line matches `directive_re`, and `shlex.split`
raises on it. -/
def cexQuoteApos : DirectivesProcessor := { pwMain with source := "//= require \x27a\nBODY" }

/-- Same shape with an unbalanced double quote. -/
def cexQuoteDouble : DirectivesProcessor :=
  { pwMain with source := "//= require \x22nope\nBODY" }

/-- The directory listing that `pwMain.envList` returns for `js/sub`,
deliberately out of order. -/
def dirListing : List (String × String) :=
  [("js/sub/b.js", "B"), ("js/sub/a.js", "A"), ("js/sub/c.js", "C")]

end Gears

namespace Gears

/-! ### General helper lemmas -/

theorem stringDataInj {s t : String} (h : s.data = t.data) : s = t := by
  cases s; cases t; cases h; rfl

theorem intercalate_singleton (s x : String) : String.intercalate s [x] = x := rfl

theorem rstripChars_idem (l : List Char) : rstripChars (rstripChars l) = rstripChars l := by
  unfold rstripChars
  rw [List.reverse_reverse, List.dropWhile_idempotent]

theorem rstrip_fixed_of_lstrip_fixed {l : List Char} (h : l.dropWhile pyIsSpace = l) :
    (rstripChars l).dropWhile pyIsSpace = rstripChars l := by
  have hpref : rstripChars l <+: l := by
    have hs : l.reverse.dropWhile pyIsSpace <:+ l.reverse := List.dropWhile_suffix _
    have := List.reverse_prefix.mpr hs
    simpa [rstripChars] using this
  cases hr : rstripChars l with
  | nil => simp
  | cons c t =>
    rw [hr] at hpref
    obtain ⟨rest, hrest⟩ := hpref
    have hc : pyIsSpace c = false := by
      by_contra hcc
      have hcc' : pyIsSpace c = true := by
        cases hx : pyIsSpace c
        · exact absurd hx hcc
        · rfl
      have hl : l = c :: (t ++ rest) := by rw [← hrest]; simp
      rw [hl, List.dropWhile_cons, hcc'] at h
      simp at h
      have hsuf : List.dropWhile pyIsSpace (t ++ rest) <:+ t ++ rest :=
        List.dropWhile_suffix pyIsSpace
      have := hsuf.length_le
      rw [h] at this
      simp at this
    rw [List.dropWhile_cons, hc]
    simp

theorem stripChars_idem (d : List Char) : stripChars (stripChars d) = stripChars d := by
  unfold stripChars
  rw [show lstripChars (rstripChars (lstripChars d)) = rstripChars (lstripChars d) from
    rstrip_fixed_of_lstrip_fixed (List.dropWhile_idempotent pyIsSpace d)]
  exact rstripChars_idem _

theorem pyStrip_idem (s : String) : pyStrip (pyStrip s) = pyStrip s := by
  unfold pyStrip
  exact congrArg String.mk (stripChars_idem s.data)

/-! ### The dispatch loop computes the assembled fragment list -/

theorem processDirectivesGo_eq (p : DirectivesProcessor) :
    ∀ (ts : List (List Char)) (ds : List (List String)) (acc : List String) (hs : Bool),
      tokenizeAll ts = some ds →
      processDirectivesGo p ts acc hs =
        some (pyStrip (String.intercalate "\n\n"
          (acc ++ (ds.map (directiveFragment p)).flatten ++
            (if hs || ds.any directiveIsSelf then []
             else [pyStrip (String.mk (sourceBody p))])))) := by
  intro ts
  induction ts with
  | nil =>
    intro ds acc hs h
    simp only [tokenizeAll, Option.some.injEq] at h
    subst h
    cases hs <;> simp [processDirectivesGo]
  | cons t rest ih =>
    intro ds acc hs h
    simp only [tokenizeAll] at h
    cases hsp : shlexSplit t with
    | none => rw [hsp] at h; exact absurd h (by simp)
    | some args =>
      rw [hsp] at h
      cases args with
      | nil => simp at h
      | cons a as =>
        cases hta : tokenizeAll rest with
        | none => rw [hta] at h; simp at h
        | some ds' =>
          rw [hta] at h
          simp only [Option.map_some', Option.some.injEq] at h
          subst h
          simp only [processDirectivesGo, hsp]
          rw [ih ds' (acc ++ directiveFragment p (a :: as)) (hs || directiveIsSelf (a :: as)) hta]
          simp [List.append_assoc, Bool.or_assoc]

/-- Tokenization failure anywhere makes the dispatch loop raise. -/
theorem processDirectivesGo_none (p : DirectivesProcessor) :
    ∀ (ts : List (List Char)) (acc : List String) (hs : Bool),
      tokenizeAll ts = none → processDirectivesGo p ts acc hs = none := by
  intro ts
  induction ts with
  | nil => intro acc hs h; simp [tokenizeAll] at h
  | cons t rest ih =>
    intro acc hs h
    simp only [tokenizeAll] at h
    cases hsp : shlexSplit t with
    | none => simp [processDirectivesGo, hsp]
    | some args =>
      rw [hsp] at h
      cases args with
      | nil => simp [processDirectivesGo, hsp]
      | cons a as =>
        cases hta : tokenizeAll rest with
        | none => simp only [processDirectivesGo, hsp]; exact ih _ _ hta
        | some ds' => rw [hta] at h; simp at h

/-! ### Header reconstruction (the split loses nothing) -/

theorem findBlockEnd_append : ∀ (cs : List Char) {m r : List Char},
    findBlockEnd cs = some (m, r) → m ++ r = cs := by
  intro cs
  induction cs with
  | nil => intro m r h; simp [findBlockEnd] at h
  | cons c rest ih =>
    intro m r h
    simp only [findBlockEnd] at h
    by_cases hc : (c == '*' && rest.head? == some '/') = true
    · rw [if_pos hc] at h
      simp only [Option.some.injEq, Prod.mk.injEq] at h
      obtain ⟨hm, hr⟩ := h
      subst hm; subst hr
      obtain ⟨hc1, hc2⟩ := Bool.and_eq_true_iff.mp hc
      have hc1' : c = '*' := by simpa using hc1
      have hc2' : rest.head? = some '/' := by simpa using hc2
      cases rest with
      | nil => simp at hc2'
      | cons x xs =>
        simp only [List.head?_cons, Option.some.injEq] at hc2'
        subst hc2'; subst hc1'
        simp
    · rw [if_neg hc] at h
      cases hfb : findBlockEnd rest with
      | none => rw [hfb] at h; simp at h
      | some q =>
        rw [hfb] at h
        obtain ⟨q1, q2⟩ := q
        simp only [Option.map_some', Option.some.injEq, Prod.mk.injEq] at h
        obtain ⟨hm, hr⟩ := h
        subst hm; subst hr
        have := ih hfb
        simp [← this]

theorem blockComment_append {cs m r : List Char}
    (h : blockComment cs = some (m, r)) : m ++ r = cs := by
  unfold blockComment at h
  by_cases hc : (cs.head? == some '/' && (cs.drop 1).head? == some '*') = true
  · rw [if_pos hc] at h
    obtain ⟨hc1, hc2⟩ := Bool.and_eq_true_iff.mp hc
    have hc1' : cs.head? = some '/' := by simpa using hc1
    have hc2' : (cs.drop 1).head? = some '*' := by simpa using hc2
    cases cs with
    | nil => simp at hc1'
    | cons x xs =>
      cases xs with
      | nil => simp at hc2'
      | cons y ys =>
        simp only [List.head?_cons, Option.some.injEq] at hc1'
        simp only [List.drop_succ_cons, List.drop_zero, List.head?_cons,
          Option.some.injEq] at hc2'
        subst hc1'; subst hc2'
        cases hfb : findBlockEnd ys with
        | none => rw [show ((('/' :: '*' :: ys).drop 2) = ys) from rfl, hfb] at h; simp at h
        | some q =>
          obtain ⟨q1, q2⟩ := q
          rw [show ((('/' :: '*' :: ys).drop 2) = ys) from rfl, hfb] at h
          simp only [Option.map_some', Option.some.injEq, Prod.mk.injEq] at h
          obtain ⟨hm, hr⟩ := h
          subst hm; subst hr
          have := findBlockEnd_append ys hfb
          simp [← this]
  · rw [if_neg hc] at h
    simp at h

theorem lineComment_append {cs m r : List Char}
    (h : lineComment cs = some (m, r)) : m ++ r = cs := by
  unfold lineComment at h
  by_cases hc : (cs.head? == some '/' && (cs.drop 1).head? == some '/') = true
  · rw [if_pos hc] at h
    obtain ⟨hc1, hc2⟩ := Bool.and_eq_true_iff.mp hc
    have hc1' : cs.head? = some '/' := by simpa using hc1
    have hc2' : (cs.drop 1).head? = some '/' := by simpa using hc2
    cases cs with
    | nil => simp at hc1'
    | cons x xs =>
      cases xs with
      | nil => simp at hc2'
      | cons y ys =>
        simp only [List.head?_cons, Option.some.injEq] at hc1'
        simp only [List.drop_succ_cons, List.drop_zero, List.head?_cons,
          Option.some.injEq] at hc2'
        subst hc1'; subst hc2'
        rw [show ((('/' :: '/' :: ys).drop 2) = ys) from rfl] at h
        simp only at h
        set rem := ys.dropWhile (fun c => !(c == '\n')) with hrem
        have hsplit : ys.takeWhile (fun c => !(c == '\n')) ++ rem = ys := by
          rw [hrem]; exact List.takeWhile_append_dropWhile ..
        by_cases hn : (rem.head? == some '\n') = true
        · rw [if_pos hn] at h
          have hn' : rem.head? = some '\n' := by simpa using hn
          simp only [Option.some.injEq, Prod.mk.injEq] at h
          obtain ⟨hm, hr⟩ := h
          subst hm; subst hr
          cases hq : rem with
          | nil => rw [hq] at hn'; simp at hn'
          | cons z zs =>
            rw [hq] at hn'
            simp only [List.head?_cons, Option.some.injEq] at hn'
            subst hn'
            rw [hq] at hsplit
            simp only [List.drop_succ_cons, List.drop_zero, List.cons_append,
              List.append_assoc, List.singleton_append, List.cons.injEq, true_and]
            exact hsplit
        · rw [if_neg hn] at h
          simp only [Option.some.injEq, Prod.mk.injEq] at h
          obtain ⟨hm, hr⟩ := h
          subst hm; subst hr
          simpa using hsplit
  · rw [if_neg hc] at h
    simp at h

theorem lineCommentsAux_append : ∀ (fuel : Nat) (cs : List Char) {m r : List Char},
    lineCommentsAux fuel cs = some (m, r) → m ++ r = cs := by
  intro fuel
  induction fuel with
  | zero => intro cs m r h; simp [lineCommentsAux] at h
  | succ n ih =>
    intro cs m r h
    simp only [lineCommentsAux] at h
    cases hlc : lineComment cs with
    | none => rw [hlc] at h; simp at h
    | some q =>
      obtain ⟨m1, r1⟩ := q
      rw [hlc] at h
      dsimp only at h
      have h1 := lineComment_append hlc
      cases hrec : lineCommentsAux n r1 with
      | none =>
        rw [hrec] at h
        simp only [Option.some.injEq, Prod.mk.injEq] at h
        obtain ⟨hm, hr⟩ := h
        subst hm; subst hr
        exact h1
      | some q2 =>
        obtain ⟨m2, r2⟩ := q2
        rw [hrec] at h
        simp only [Option.some.injEq, Prod.mk.injEq] at h
        obtain ⟨hm, hr⟩ := h
        subst hm; subst hr
        have h2 := ih r1 hrec
        rw [List.append_assoc, h2, h1]

theorem headerChunk_append {cs m r : List Char}
    (h : headerChunk cs = some (m, r)) : m ++ r = cs := by
  unfold headerChunk at h
  dsimp only at h
  set rest := cs.dropWhile pyIsSpace with hrest
  have hsplit : cs.takeWhile pyIsSpace ++ rest = cs := by
    rw [hrest]; exact List.takeWhile_append_dropWhile ..
  cases hbc : blockComment rest with
  | some q =>
    obtain ⟨m1, r1⟩ := q
    rw [hbc] at h
    simp only [Option.some.injEq, Prod.mk.injEq] at h
    obtain ⟨hm, hr⟩ := h
    subst hm; subst hr
    rw [List.append_assoc, blockComment_append hbc]
    exact hsplit
  | none =>
    rw [hbc] at h
    cases hlc : lineCommentsAux (rest.length + 1) rest with
    | none => rw [hlc] at h; simp at h
    | some q =>
      obtain ⟨m1, r1⟩ := q
      rw [hlc] at h
      simp only [Option.some.injEq, Prod.mk.injEq] at h
      obtain ⟨hm, hr⟩ := h
      subst hm; subst hr
      rw [List.append_assoc, lineCommentsAux_append _ _ hlc]
      exact hsplit

theorem headerMatchAux_append : ∀ (fuel : Nat) (cs : List Char) {m r : List Char},
    headerMatchAux fuel cs = some (m, r) → m ++ r = cs := by
  intro fuel
  induction fuel with
  | zero => intro cs m r h; simp [headerMatchAux] at h
  | succ n ih =>
    intro cs m r h
    simp only [headerMatchAux] at h
    cases hhc : headerChunk cs with
    | none => rw [hhc] at h; simp at h
    | some q =>
      obtain ⟨m1, r1⟩ := q
      rw [hhc] at h
      dsimp only at h
      have h1 := headerChunk_append hhc
      cases hrec : headerMatchAux n r1 with
      | none =>
        rw [hrec] at h
        simp only [Option.some.injEq, Prod.mk.injEq] at h
        obtain ⟨hm, hr⟩ := h
        subst hm; subst hr
        exact h1
      | some q2 =>
        obtain ⟨m2, r2⟩ := q2
        rw [hrec] at h
        simp only [Option.some.injEq, Prod.mk.injEq] at h
        obtain ⟨hm, hr⟩ := h
        subst hm; subst hr
        have h2 := ih r1 hrec
        rw [List.append_assoc, h2, h1]

end Gears

namespace Gears

/-! ### Lexicographic order on keys -/

theorem charEqOfToNat {c d : Char} (h : c.toNat = d.toNat) : c = d := by
  have hv : c.val = d.val := UInt32.toNat.inj h
  exact Char.eq_of_val_eq hv

theorem lexLt_asymm : ∀ (a b : List Char), lexLt a b = true → lexLt b a = false
  | [], [], h => by simp [lexLt] at h
  | [], _ :: _, _ => by simp [lexLt]
  | _ :: _, [], h => by simp [lexLt] at h
  | x :: xs, y :: ys, h => by
    simp only [lexLt] at h ⊢
    by_cases h1 : x.toNat < y.toNat
    · rw [if_neg (by omega), if_pos h1]
    · rw [if_neg h1] at h
      by_cases h2 : y.toNat < x.toNat
      · rw [if_pos h2] at h; simp at h
      · rw [if_neg h2] at h
        rw [if_neg h2, if_neg h1]
        exact lexLt_asymm xs ys h

theorem lexLt_connex : ∀ (a b : List Char),
    lexLt a b = false → lexLt b a = false → a = b
  | [], [], _, _ => rfl
  | [], _ :: _, h1, _ => by simp [lexLt] at h1
  | _ :: _, [], _, h2 => by simp [lexLt] at h2
  | x :: xs, y :: ys, h1, h2 => by
    simp only [lexLt] at h1 h2
    by_cases ha : x.toNat < y.toNat
    · rw [if_pos ha] at h1; simp at h1
    · by_cases hb : y.toNat < x.toNat
      · rw [if_pos hb] at h2; simp at h2
      · rw [if_neg ha, if_neg hb] at h1
        rw [if_neg hb, if_neg ha] at h2
        have hx : x = y := charEqOfToNat (by omega)
        rw [hx, lexLt_connex xs ys h1 h2]

theorem lexLt_trans : ∀ (a b c : List Char),
    lexLt a b = true → lexLt b c = true → lexLt a c = true
  | [], [], _, h1, _ => by simp [lexLt] at h1
  | [], _ :: _, [], _, h2 => by simp [lexLt] at h2
  | [], _ :: _, _ :: _, _, _ => by simp [lexLt]
  | _ :: _, [], _, h1, _ => by simp [lexLt] at h1
  | _ :: _, _ :: _, [], _, h2 => by simp [lexLt] at h2
  | x :: xs, y :: ys, z :: zs, h1, h2 => by
    simp only [lexLt] at h1 h2 ⊢
    by_cases a1 : x.toNat < y.toNat <;> by_cases a2 : y.toNat < z.toNat
    · rw [if_pos (by omega)]
    · rw [if_neg a2] at h2
      by_cases a3 : z.toNat < y.toNat
      · rw [if_pos a3] at h2; simp at h2
      · rw [if_pos (by omega)]
    · rw [if_neg a1] at h1
      by_cases a3 : y.toNat < x.toNat
      · rw [if_pos a3] at h1; simp at h1
      · rw [if_pos (by omega)]
    · rw [if_neg a1] at h1
      rw [if_neg a2] at h2
      by_cases a3 : y.toNat < x.toNat
      · rw [if_pos a3] at h1; simp at h1
      · by_cases a4 : z.toNat < y.toNat
        · rw [if_pos a4] at h2; simp at h2
        · rw [if_neg a3] at h1
          rw [if_neg a4] at h2
          rw [if_neg (by omega), if_neg (by omega)]
          exact lexLt_trans xs ys zs h1 h2

theorem lexLt_tricho (a b : List Char) :
    lexLt a b = true ∨ lexLt b a = true ∨ a = b := by
  by_cases h1 : lexLt a b = true
  · exact Or.inl h1
  · by_cases h2 : lexLt b a = true
    · exact Or.inr (Or.inl h2)
    · exact Or.inr (Or.inr (lexLt_connex a b
        (Bool.not_eq_true _ ▸ Bool.eq_false_iff.mpr h1)
        (Bool.not_eq_true _ ▸ Bool.eq_false_iff.mpr h2)))

theorem pathLt_false_trans {a b c : String}
    (h1 : pathLt b a = false) (h2 : pathLt c b = false) : pathLt c a = false := by
  by_contra hcc
  have hca : lexLt c.data a.data = true := by
    cases hx : pathLt c a
    · exact absurd hx hcc
    · exact hx
  rcases lexLt_tricho b.data c.data with hbc | hcb | heq
  · exact absurd (lexLt_trans _ _ _ hbc hca) (by simpa [pathLt] using h1)
  · exact absurd hcb (by simpa [pathLt] using h2)
  · rw [pathLt, ← heq] at hcc
    exact absurd h1 (by simpa [pathLt] using hcc)

/-! ### The stable ascending sort -/

theorem insertByPath_perm (x : String × String) :
    ∀ l, List.Perm (insertByPath x l) (x :: l)
  | [] => List.Perm.refl _
  | y :: ys => by
    simp only [insertByPath]
    by_cases h : pathLt y.1 x.1 = true
    · simp only [h, if_true]
      exact ((insertByPath_perm x ys).cons y).trans (List.Perm.swap x y ys)
    · simp only [h, if_false]
      exact List.Perm.refl _

theorem sortByPath_perm : ∀ l, List.Perm (sortByPath l) l
  | [] => List.Perm.refl _
  | x :: xs =>
    (insertByPath_perm x (sortByPath xs)).trans ((sortByPath_perm xs).cons x)

theorem insertByPath_pairwise {x : String × String} :
    ∀ {l : List (String × String)}, l.Pairwise pathLe →
      (insertByPath x l).Pairwise pathLe
  | [], _ => List.pairwise_singleton _ _
  | y :: ys, h => by
    obtain ⟨hy, hys⟩ := List.pairwise_cons.mp h
    simp only [insertByPath]
    by_cases hc : pathLt y.1 x.1 = true
    · simp only [hc, if_true]
      refine List.pairwise_cons.mpr ⟨?_, insertByPath_pairwise hys⟩
      intro z hz
      rcases List.mem_cons.mp ((insertByPath_perm x ys).mem_iff.mp hz) with hzx | hzys
      · subst hzx
        exact lexLt_asymm _ _ hc
      · exact hy z hzys
    · simp only [hc, if_false]
      refine List.pairwise_cons.mpr ⟨?_, h⟩
      intro z hz
      rcases List.mem_cons.mp hz with hzy | hzys
      · subst hzy
        exact Bool.eq_false_iff.mpr hc
      · show pathLt z.1 x.1 = false
        exact pathLt_false_trans (Bool.eq_false_iff.mpr hc) (hy z hzys)

theorem sortByPath_pairwise : ∀ l, (sortByPath l).Pairwise pathLe
  | [] => List.Pairwise.nil
  | _ :: xs => insertByPath_pairwise (sortByPath_pairwise xs)

/-- On entry lists whose keys are distinct, the sorted order is strict. -/
theorem sortByPath_strict {l s : List (String × String)}
    (hnd : (l.map Prod.fst).Nodup) (hperm : List.Perm s l)
    (hpw : s.Pairwise pathLe) :
    s.Pairwise (fun u v => pathLt u.1 v.1 = true) := by
  have h1 : (s.map Prod.fst).Nodup := ((hperm.map Prod.fst).nodup_iff).mpr hnd
  have h2 : s.Pairwise (fun u v => u.1 ≠ v.1) := by
    rw [List.Nodup, List.pairwise_map] at h1
    exact h1
  refine (hpw.and h2).imp ?_
  intro u v huv
  obtain ⟨hle, hne⟩ := huv
  rcases lexLt_tricho u.1.data v.1.data with h | h | h
  · exact h
  · exact absurd h (by simpa [pathLe, pathLt] using hle)
  · exact absurd (stringDataInj h) hne

/-! ### Token lists from directive lines are never empty -/

theorem shlexAux_length : ∀ (fuel : Nat) (cs acc : List Char) (iw : Bool)
    (toks res : List String),
    shlexAux fuel cs acc iw toks = some res →
    toks.length + (if iw then 1 else 0) ≤ res.length := by
  intro fuel
  induction fuel with
  | zero => intro cs acc iw toks res h; simp [shlexAux] at h
  | succ n ih =>
    intro cs acc iw toks res h
    cases cs with
    | nil =>
      simp only [shlexAux, Option.some.injEq] at h
      subst h
      cases iw <;> simp
    | cons c rest =>
      simp only [shlexAux] at h
      by_cases hws : shlexWs c = true
      · rw [if_pos hws] at h
        cases iw
        · simp only [Bool.false_eq_true, if_false] at h ⊢
          simpa using ih _ _ _ _ _ h
        · simp only [if_true] at h ⊢
          have := ih _ _ _ _ _ h
          simp at this
          omega
      · rw [if_neg hws] at h
        by_cases hq : isQuoteChar c = true
        · rw [if_pos hq] at h
          cases htq : takeQuoted c rest with
          | none => rw [htq] at h; simp at h
          | some pr =>
            rw [htq] at h
            obtain ⟨inner, rest2⟩ := pr
            dsimp only at h
            have := ih _ _ _ _ _ h
            simp only [if_true] at this
            cases iw <;> simp <;> omega
        · rw [if_neg hq] at h
          have := ih _ _ _ _ _ h
          simp only [if_true] at this
          cases iw <;> simp <;> omega

theorem wordChar_ranges {c : Char} (h : isWordChar c = true) :
    97 ≤ c.toNat ∧ c.toNat ≤ 122 ∨ 65 ≤ c.toNat ∧ c.toNat ≤ 90 ∨
    48 ≤ c.toNat ∧ c.toNat ≤ 57 ∨ c.toNat = 95 := by
  simp only [isWordChar, Bool.or_eq_true, decide_eq_true_eq, beq_iff_eq] at h
  rcases h with ((h | h) | h) | h
  · exact Or.inl h
  · exact Or.inr (Or.inl h)
  · exact Or.inr (Or.inr (Or.inl h))
  · subst h
    exact Or.inr (Or.inr (Or.inr rfl))

theorem charBeqFalse {c d : Char} (h : c.toNat ≠ d.toNat) : (c == d) = false :=
  beq_eq_false_iff_ne.mpr (fun he => h (congrArg Char.toNat he))

theorem wordChar_not_ws_quote {c : Char} (h : isWordChar c = true) :
    shlexWs c = false ∧ isQuoteChar c = false := by
  have hr := wordChar_ranges h
  constructor
  · simp only [shlexWs, Bool.or_eq_false_iff]
    exact ⟨⟨⟨charBeqFalse (show c.toNat ≠ 32 by omega),
      charBeqFalse (show c.toNat ≠ 9 by omega)⟩,
      charBeqFalse (show c.toNat ≠ 13 by omega)⟩,
      charBeqFalse (show c.toNat ≠ 10 by omega)⟩
  · simp only [isQuoteChar, Bool.or_eq_false_iff]
    constructor <;> simp only [beq_eq_false_iff_ne, ne_eq] <;> omega

theorem parseDirectiveLine_head {line t : List Char}
    (hp : parseDirectiveLine line = some t) :
    ∃ c t', t = c :: t' ∧ isWordChar c = true := by
  unfold parseDirectiveLine at hp
  cases hm : matchMarker (line.dropWhile pyIsSpace) with
  | none => rw [hm] at hp; simp at hp
  | some rest =>
    rw [hm] at hp
    dsimp only at hp
    by_cases he : ((rest.dropWhile pyIsSpace).head? == some '=') = true
    · rw [if_pos he] at hp
      cases hh : (((rest.dropWhile pyIsSpace).drop 1).dropWhile pyIsSpace).head? with
      | none => rw [hh] at hp; simp at hp
      | some c =>
        rw [hh] at hp
        dsimp only at hp
        by_cases hok : (isWordChar c &&
            (((rest.dropWhile pyIsSpace).drop 1).dropWhile pyIsSpace).all isDirectiveChar) = true
        · rw [if_pos hok] at hp
          simp only [Option.some.injEq] at hp
          subst hp
          obtain ⟨hw, _⟩ := Bool.and_eq_true_iff.mp hok
          cases hq : ((rest.dropWhile pyIsSpace).drop 1).dropWhile pyIsSpace with
          | nil => rw [hq] at hh; simp at hh
          | cons c0 t0 =>
            rw [hq] at hh
            simp only [List.head?_cons, Option.some.injEq] at hh
            subst hh
            exact ⟨c0, t0, rfl, hw⟩
        · rw [if_neg hok] at hp; simp at hp
    · rw [if_neg he] at hp; simp at hp

/-! ### Failing directives and empty headers -/

theorem directiveFragment_of_errors {p : DirectivesProcessor} {args : List String}
    (h : directiveErrors p args) :
    directiveFragment p args = [] ∧ directiveIsSelf args = false := by
  obtain ⟨name, rest, rfl, hcase⟩ := h
  have hself : ∀ hn : name ≠ "require_self", directiveIsSelf (name :: rest) = false := by
    intro hn
    simp only [directiveIsSelf]
    rw [beq_eq_false_iff_ne]
    intro hcontra
    injection hcontra with hh _
    exact hn hh
  rcases hcase with ⟨hn, hlen⟩ | ⟨hn, a, hrest, hfind⟩ | ⟨hn, hlen⟩ | ⟨hn, hne⟩ | ⟨h1, h2, h3⟩
  · subst hn
    refine ⟨?_, hself (by decide)⟩
    cases rest with
    | nil => rfl
    | cons x xs =>
      cases xs with
      | nil => simp at hlen
      | cons y ys => rfl
  · subst hn; subst hrest
    refine ⟨?_, hself (by decide)⟩
    simp [directiveFragment, hfind]
  · subst hn
    refine ⟨?_, hself (by decide)⟩
    cases rest with
    | nil => rfl
    | cons x xs =>
      cases xs with
      | nil => simp at hlen
      | cons y ys => rfl
  · subst hn
    cases rest with
    | nil => exact absurd rfl hne
    | cons x xs =>
      refine ⟨rfl, ?_⟩
      simp only [directiveIsSelf]
      rw [beq_eq_false_iff_ne]
      intro hcontra
      injection hcontra with _ hh
      exact List.cons_ne_nil x xs hh
  · refine ⟨?_, hself h3⟩
    simp [directiveFragment, h1, h2, h3]

theorem parse_directives_nil_of_header_nil {p : DirectivesProcessor}
    (h : sourceHeader p = []) : parse_directives p = [] := by
  unfold parse_directives
  rw [h]
  rfl

end Gears

namespace Gears

/-! ### Assembly helpers shared by the claim theorems -/

theorem process_directives_eq_spec (p : DirectivesProcessor) (ds : List (List String))
    (ht : tokenizeAll (parse_directives p) = some ds) :
    process_directives p =
      some (pyStrip (String.intercalate "\n\n" (specFragments p ds))) := by
  unfold process_directives
  rw [processDirectivesGo_eq p _ ds [] false ht]
  simp [specFragments]

theorem process_eq_spec (p : DirectivesProcessor) (ds : List (List String))
    (hh : sourceHeader p ≠ [])
    (ht : tokenizeAll (parse_directives p) = some ds) :
    process p = some (pyStrip (String.intercalate "\n\n" (specFragments p ds)) ++ "\n") := by
  unfold process
  rw [if_neg (by simpa using hh)]
  rw [process_directives_eq_spec p ds ht]
  rfl

theorem sourceHeader_ne_of_tokenized {p : DirectivesProcessor}
    {ds : List (List String)}
    (ht : tokenizeAll (parse_directives p) = some ds) (hne : ds ≠ []) :
    sourceHeader p ≠ [] := by
  intro h0
  rw [parse_directives_nil_of_header_nil h0] at ht
  simp only [tokenizeAll, Option.some.injEq] at ht
  exact hne ht.symm

theorem headerChunk_none_of_hash {cs : List Char}
    (h : (cs.dropWhile pyIsSpace).head? = some '#') : headerChunk cs = none := by
  obtain ⟨cs', hcs⟩ : ∃ cs', cs.dropWhile pyIsSpace = '#' :: cs' := by
    cases hx : cs.dropWhile pyIsSpace with
    | nil => rw [hx] at h; simp at h
    | cons c0 t0 =>
      rw [hx] at h
      simp only [List.head?_cons, Option.some.injEq] at h
      subst h
      exact ⟨t0, rfl⟩
  unfold headerChunk
  dsimp only
  rw [hcs]
  have hb : blockComment ('#' :: cs') = none := by
    unfold blockComment
    simp
  have hl : lineComment ('#' :: cs') = none := by
    unfold lineComment
    simp
  have hlcs : lineCommentsAux (('#' :: cs').length + 1) ('#' :: cs') = none := by
    simp only [lineCommentsAux]
    rw [hl]
  rw [hb, hlcs]

/-! ### The claims -/

/-- C5: the header/body split performed at construction is total (both
components are computed by total functions) and lossless: for every
processor, the extracted header followed by the body reconstructs the
original source text exactly. -/
theorem c5_split_reconstructs (p : DirectivesProcessor) :
    sourceHeader p ++ sourceBody p = p.source.data := by
  unfold sourceHeader sourceBody
  cases hm : headerMatch p.source.data with
  | none => simp
  | some q =>
    obtain ⟨m, r⟩ := q
    dsimp only
    exact headerMatchAux_append _ _ hm

/-- C1 counterexample: a source with a non-empty header on which `process`
yields no output at all — the claim as stated promises that the final
output is the joined fragment list, but here the single directive line
carries an unbalanced quote, `shlex.split` raises `ValueError`, the
exception escapes, and there is no output. -/
theorem c1_counterexample :
    sourceHeader cexQuoteApos ≠ [] ∧ process cexQuoteApos = none := by
  constructor
  · decide
  · decide

/-- C1 (amended): for every source with a non-empty header whose
directive-matching lines all shell-tokenize (balanced quotes), `process`
emits output fragments in directive order: each successful `require_self`
contributes the asset's own stripped body at its position, the stripped
body is appended once at the end when no `require_self` succeeded, and the
final output is the fragment list joined with a blank line between
fragments, trimmed, with exactly one trailing newline. -/
theorem c1_assembly (p : DirectivesProcessor) (ds : List (List String))
    (hh : sourceHeader p ≠ [])
    (ht : tokenizeAll (parse_directives p) = some ds) :
    process p = some (pyStrip (String.intercalate "\n\n" (specFragments p ds)) ++ "\n")
    ∧ directiveFragment p ["require_self"] = [pyStrip (String.mk (sourceBody p))]
    ∧ specFragments p ds = (ds.map (directiveFragment p)).flatten ++
        (if ds.any directiveIsSelf then [] else [pyStrip (String.mk (sourceBody p))]) :=
  ⟨process_eq_spec p ds hh ht, rfl, rfl⟩

theorem c1_assembly_witness :
    sourceHeader pwMain ≠ [] ∧
    tokenizeAll (parse_directives pwMain) = some [["require", "a"], ["require_self"]] ∧
    (process pwMain = some (pyStrip (String.intercalate "\n\n"
        (specFragments pwMain [["require", "a"], ["require_self"]])) ++ "\n")
      ∧ directiveFragment pwMain ["require_self"] =
          [pyStrip (String.mk (sourceBody pwMain))]
      ∧ specFragments pwMain [["require", "a"], ["require_self"]] =
          (([["require", "a"], ["require_self"]]).map (directiveFragment pwMain)).flatten ++
            (if ([["require", "a"], ["require_self"]]).any directiveIsSelf then []
             else [pyStrip (String.mk (sourceBody pwMain))])) ∧
    process pwMain = some "AAA\n\nBODY\n" :=
  ⟨by decide, by decide, c1_assembly pwMain _ (by decide) (by decide), by decide⟩

/-- C2: a directive failing with a directive-level error — wrong argument
count, unknown directive name, or a `require` whose resolved target is not
found — contributes no fragment and does not abort assembly: the overall
output equals the output with that directive absent, so every other
directive's fragments are untouched. -/
theorem c2_fail_soft (p : DirectivesProcessor) (ds₁ ds₂ : List (List String))
    (d : List String)
    (ht : tokenizeAll (parse_directives p) = some (ds₁ ++ d :: ds₂))
    (he : directiveErrors p d) :
    directiveFragment p d = []
    ∧ specFragments p (ds₁ ++ d :: ds₂) = specFragments p (ds₁ ++ ds₂)
    ∧ process p = some (pyStrip (String.intercalate "\n\n"
        (specFragments p (ds₁ ++ ds₂))) ++ "\n") := by
  obtain ⟨hf, hs⟩ := directiveFragment_of_errors he
  have hspec : specFragments p (ds₁ ++ d :: ds₂) = specFragments p (ds₁ ++ ds₂) := by
    unfold specFragments
    rw [List.map_append, List.map_append, List.map_cons, List.flatten_append,
      List.flatten_append, List.flatten_cons, hf]
    simp [List.any_append, List.any_cons, hs]
  have hh : sourceHeader p ≠ [] :=
    sourceHeader_ne_of_tokenized ht (by simp)
  refine ⟨hf, hspec, ?_⟩
  rw [process_eq_spec p _ hh ht, hspec]

theorem c2_fail_soft_witness :
    tokenizeAll (parse_directives pwFailSoft) =
      some ([] ++ ["require", "nope"] :: [["require_self"]]) ∧
    directiveErrors pwFailSoft ["require", "nope"] ∧
    (directiveFragment pwFailSoft ["require", "nope"] = []
      ∧ specFragments pwFailSoft ([] ++ ["require", "nope"] :: [["require_self"]]) =
          specFragments pwFailSoft ([] ++ [["require_self"]])
      ∧ process pwFailSoft = some (pyStrip (String.intercalate "\n\n"
          (specFragments pwFailSoft ([] ++ [["require_self"]]))) ++ "\n")) ∧
    process pwFailSoft = some "BODY\n" :=
  ⟨by decide,
   ⟨"require", ["nope"], rfl, Or.inr (Or.inl ⟨rfl, "nope", rfl, by decide⟩)⟩,
   c2_fail_soft pwFailSoft [] [["require_self"]] ["require", "nope"] (by decide)
     ⟨"require", ["nope"], rfl, Or.inr (Or.inl ⟨rfl, "nope", rfl, by decide⟩)⟩,
   by decide⟩

/-- C3 counterexample: the claim promises that `process()` never raises
because of a malformed directive line, but a directive-matching line whose
text carries an unbalanced double quote makes `shlex.split` raise
`ValueError`, which escapes `process()` (modelled as `none`). -/
theorem c3_counterexample :
    sourceHeader cexQuoteDouble ≠ [] ∧
    (parse_directives cexQuoteDouble).length = 1 ∧
    shlexSplit ((parse_directives cexQuoteDouble).headD []) = none ∧
    process cexQuoteDouble = none := by
  refine ⟨by decide, by decide, by decide, by decide⟩

/-- C3 (amended): `process()` never raises because of a malformed directive
line, except when a directive-matching line's text has an unbalanced
quote — whenever every directive-matching line shell-tokenizes, `process`
returns a value. -/
theorem c3_no_raise (p : DirectivesProcessor) (ds : List (List String))
    (ht : tokenizeAll (parse_directives p) = some ds) :
    ∃ out, process p = some out := by
  by_cases hh : sourceHeader p = []
  · refine ⟨pyStrip (String.mk (sourceBody p)) ++ "\n", ?_⟩
    unfold process
    rw [if_pos (by simpa using hh)]
  · exact ⟨_, process_eq_spec p ds hh ht⟩

theorem c3_no_raise_witness :
    tokenizeAll (parse_directives pwDir) = some [["require_directory", "sub"]] ∧
    ∃ out, process pwDir = some out :=
  ⟨by decide, c3_no_raise pwDir [["require_directory", "sub"]] (by decide)⟩

/-- C4: a source with an empty header, and likewise a source whose header
has no directive-matching line, both produce exactly the stripped body
plus one trailing newline; with an empty header the result does not
consult directive handling at all. -/
theorem c4_no_directives (p : DirectivesProcessor)
    (h : sourceHeader p = [] ∨ parse_directives p = []) :
    process p = some (pyStrip (String.mk (sourceBody p)) ++ "\n") := by
  rcases h with h | h
  · unfold process
    rw [if_pos (by simpa using h)]
  · by_cases hh : sourceHeader p = []
    · unfold process
      rw [if_pos (by simpa using hh)]
    · rw [process_eq_spec p [] hh (by rw [h]; rfl)]
      unfold specFragments
      simp [intercalate_singleton, pyStrip_idem]

theorem c4_no_directives_witness :
    sourceHeader pwNoHeader = [] ∧ parse_directives pwProse = [] ∧
    process pwNoHeader = some (pyStrip (String.mk (sourceBody pwNoHeader)) ++ "\n") ∧
    process pwProse = some (pyStrip (String.mk (sourceBody pwProse)) ++ "\n") ∧
    process pwNoHeader = some "BODY\n" ∧ process pwProse = some "BODY\n" :=
  ⟨by decide, by decide, c4_no_directives pwNoHeader (Or.inl (by decide)),
    c4_no_directives pwProse (Or.inr (by decide)), by decide, by decide⟩

/-- C6: for a `require_directory` directive with one argument, the
environment's listing is rendered sorted ascending by logical path: the
fragments are the stripped rendered texts in sorted order, the sorted list
is an ascending permutation of the listing, and — the logical paths being
distinct — every permutation of the listing sorts to the same list, so the
locator's order is irrelevant. -/
theorem c6_directory_sorted (p : DirectivesProcessor) (a : String)
    (l : List (String × String))
    (hl : p.envList (get_relative_path p a true) p.suffix = l)
    (hnd : (l.map Prod.fst).Nodup) :
    directiveFragment p ["require_directory", a] =
      (sortByPath l).map (fun e => pyStrip e.2)
    ∧ (sortByPath l).Pairwise pathLe
    ∧ List.Perm (sortByPath l) l
    ∧ ∀ l', List.Perm l' l → sortByPath l' = sortByPath l := by
  refine ⟨?_, sortByPath_pairwise l, sortByPath_perm l, ?_⟩
  · simp [directiveFragment, hl]
  · intro l' hperm
    have hnd' : (l'.map Prod.fst).Nodup := ((hperm.map Prod.fst).nodup_iff).mpr hnd
    haveI : IsAntisymm (String × String) (fun u v => pathLt u.1 v.1 = true) := by
      constructor
      intro u v h1 h2
      exfalso
      unfold pathLt at h1 h2
      rw [lexLt_asymm _ _ h1] at h2
      simp at h2
    exact List.eq_of_perm_of_sorted
      ((sortByPath_perm l').trans (hperm.trans (sortByPath_perm l).symm))
      (sortByPath_strict hnd' (sortByPath_perm l') (sortByPath_pairwise l'))
      (sortByPath_strict hnd (sortByPath_perm l) (sortByPath_pairwise l))

theorem c6_directory_sorted_witness :
    pwDir.envList (get_relative_path pwDir "sub" true) pwDir.suffix = dirListing ∧
    (dirListing.map Prod.fst).Nodup ∧
    (directiveFragment pwDir ["require_directory", "sub"] =
        (sortByPath dirListing).map (fun e => pyStrip e.2)
      ∧ (sortByPath dirListing).Pairwise pathLe
      ∧ List.Perm (sortByPath dirListing) dirListing
      ∧ ∀ l', List.Perm l' dirListing → sortByPath l' = sortByPath dirListing) ∧
    directiveFragment pwDir ["require_directory", "sub"] = ["A", "B", "C"] :=
  ⟨by decide, by decide,
    c6_directory_sorted pwDir "sub" dirListing (by decide) (by decide), by decide⟩

/-- C7: a directive path argument resolves by joining it to the directory
of the current asset's logical path and lexically normalizing; for file
references (`require`, via `find`) the asset's full extension chain is
appended before the environment lookup, and for directory references
(`require_directory`) nothing is appended before listing. -/
theorem c7_path_resolution (p : DirectivesProcessor) (a : String) :
    get_relative_path p a false =
      normpath (joinPath (dirname p.path) a) ++ String.join p.extensions
    ∧ get_relative_path p a true = normpath (joinPath (dirname p.path) a)
    ∧ find p a =
      p.envFind (normpath (joinPath (dirname p.path) a) ++ String.join p.extensions)
    ∧ directiveFragment p ["require_directory", a] =
      (sortByPath (p.envList (normpath (joinPath (dirname p.path) a)) p.suffix)).map
        (fun e => pyStrip e.2) :=
  ⟨rfl, rfl, rfl, rfl⟩

/-- C8: every header line matching the directive grammar begins its capture
group with a word character, so a successful shell split of the group is a
non-empty token list and the dispatch's read of the directive name at
index 0 cannot fail. -/
theorem c8_tokens_nonempty (line t : List Char) (args : List String)
    (hp : parseDirectiveLine line = some t) (hs : shlexSplit t = some args) :
    args ≠ [] := by
  obtain ⟨c, t', rfl, hw⟩ := parseDirectiveLine_head hp
  obtain ⟨hws, hq⟩ := wordChar_not_ws_quote hw
  unfold shlexSplit at hs
  rw [show (c :: t').length + 1 = (t'.length + 1) + 1 by simp] at hs
  simp only [shlexAux, hws, hq, Bool.false_eq_true, if_false] at hs
  have hlen := shlexAux_length _ _ _ _ _ _ hs
  simp only [if_true] at hlen
  intro hnil
  subst hnil
  simp at hlen

theorem c8_tokens_nonempty_witness :
    parseDirectiveLine ("//= require a").data = some ("require a").data ∧
    shlexSplit ("require a").data = some ["require", "a"] ∧
    ["require", "a"] ≠ ([] : List String) :=
  ⟨by decide, by decide,
    c8_tokens_nonempty ("//= require a").data ("require a").data ["require", "a"]
      (by decide) (by decide)⟩

/-- C9: when every `require_self` directive in the tokenized header is
given one or more arguments, each such directive is rejected before the
success flag is set, so no explicit self placement is recorded and the
asset's own stripped body is appended exactly once at the end, exactly as
in the default placement. -/
theorem c9_failed_self_default (p : DirectivesProcessor) (ds : List (List String))
    (ht : tokenizeAll (parse_directives p) = some ds)
    (hself : ∀ d ∈ ds, d.head? = some "require_self" → d.tail ≠ []) :
    ds.any directiveIsSelf = false
    ∧ process_directives p = some (pyStrip (String.intercalate "\n\n"
        ((ds.map (directiveFragment p)).flatten ++
          [pyStrip (String.mk (sourceBody p))]))) := by
  have hany : ds.any directiveIsSelf = false := by
    rw [List.any_eq_false]
    intro d hd hd2
    have hd3 : d = ["require_self"] := by
      simpa [directiveIsSelf] using hd2
    subst hd3
    exact (hself _ hd rfl) rfl
  refine ⟨hany, ?_⟩
  rw [process_directives_eq_spec p ds ht]
  unfold specFragments
  rw [hany]
  simp

theorem c9_failed_self_default_witness :
    tokenizeAll (parse_directives pwSelfArgs) = some [["require_self", "x"]] ∧
    (∀ d ∈ [["require_self", "x"]], d.head? = some "require_self" → d.tail ≠ []) ∧
    (([["require_self", "x"]] : List (List String)).any directiveIsSelf = false
      ∧ process_directives pwSelfArgs = some (pyStrip (String.intercalate "\n\n"
          (([["require_self", "x"]].map (directiveFragment pwSelfArgs)).flatten ++
            [pyStrip (String.mk (sourceBody pwSelfArgs))])))) ∧
    process pwSelfArgs = some "BODY\n" :=
  ⟨by decide, by decide,
    c9_failed_self_default pwSelfArgs [["require_self", "x"]] (by decide) (by decide),
    by decide⟩

/-- C10: a source whose leading content opens with the `#` marker (after
optional whitespace) yields an empty header — headers are extracted only
from block comments or `//` runs — so the body is the whole source and no
directive handling runs, even though `#` is an accepted directive marker
on lines inside a header. -/
theorem c10_hash_no_header (p : DirectivesProcessor)
    (h : (p.source.data.dropWhile pyIsSpace).head? = some '#') :
    sourceHeader p = [] ∧ sourceBody p = p.source.data
    ∧ process p = some (pyStrip p.source ++ "\n")
    ∧ parseDirectiveLine ("#= require a").data = some ("require a").data := by
  have hchunk : headerChunk p.source.data = none := headerChunk_none_of_hash h
  have hmn : headerMatch p.source.data = none := by
    unfold headerMatch
    simp only [headerMatchAux]
    rw [hchunk]
  have hsh : sourceHeader p = [] := by unfold sourceHeader; rw [hmn]
  have hsb : sourceBody p = p.source.data := by unfold sourceBody; rw [hmn]
  refine ⟨hsh, hsb, ?_, by decide⟩
  unfold process
  rw [if_pos (by simpa using hsh), hsb]

theorem c10_hash_no_header_witness :
    (pwHash.source.data.dropWhile pyIsSpace).head? = some '#' ∧
    (sourceHeader pwHash = [] ∧ sourceBody pwHash = pwHash.source.data
      ∧ process pwHash = some (pyStrip pwHash.source ++ "\n")
      ∧ parseDirectiveLine ("#= require a").data = some ("require a").data) ∧
    process pwHash = some "# = require a\nBODY\n" :=
  ⟨by decide, c10_hash_no_header pwHash (by decide), by decide⟩

end Gears
